import Mathlib

/-!
Verification of the MIMC adaptive estimation engine (mimclib, `mimc.py`).

The numerical code operates on numpy floating point arrays.  We shallowly
embed the float values as the inductive type `Fl`: a finite value is carried
as an exact rational (rounding of individual operations is not modelled),
and the special values `nan`, `inf` (+infinity) and `ninf` (-infinity)
follow IEEE-754 / numpy propagation rules, which is what the claims about
undefined (NaN) and infinite results are about.  Signed zero is not
distinguished (the code never branches on it).

Square roots and float powers are irrational in general, so the embedding
keeps them abstract: `fsqrt` is parameterised by a function
`rsqrt : ℚ → ℚ` giving the value of the square root on non-negative finite
arguments, while the IEEE structure (NaN for negative or NaN arguments,
infinity for infinity) is fixed.  All theorems are quantified over `rsqrt`.

The ML2R combination weights (`calc_ml2r_weights`) are pure real analysis
(they use `exp`); that single function is modelled over `ℝ`.
-/

namespace Mimc

/-- Model of a numpy floating-point scalar: an exact rational, or one of the
IEEE special values NaN, +inf, -inf. -/
inductive Fl where
  | nan : Fl
  | inf : Fl
  | ninf : Fl
  | fin (q : ℚ) : Fl
deriving DecidableEq, Inhabited

namespace Fl

/-- IEEE addition (numpy `+`): NaN absorbs, `inf + (-inf) = NaN`. -/
def add : Fl → Fl → Fl
  | nan, _ => nan
  | _, nan => nan
  | inf, ninf => nan
  | ninf, inf => nan
  | inf, _ => inf
  | _, inf => inf
  | ninf, _ => ninf
  | _, ninf => ninf
  | fin a, fin b => fin (a + b)

/-- IEEE negation. -/
def neg : Fl → Fl
  | nan => nan
  | inf => ninf
  | ninf => inf
  | fin a => fin (-a)

/-- IEEE subtraction, `a - b = a + (-b)`. -/
def sub (a b : Fl) : Fl := a.add b.neg

/-- IEEE multiplication (numpy `*`): NaN absorbs, `inf * 0 = NaN`,
otherwise infinities follow the sign of the finite factor. -/
def mul : Fl → Fl → Fl
  | nan, _ => nan
  | _, nan => nan
  | inf, inf => inf
  | inf, ninf => ninf
  | ninf, inf => ninf
  | ninf, ninf => inf
  | inf, fin b => if 0 < b then inf else if b < 0 then ninf else nan
  | fin a, inf => if 0 < a then inf else if a < 0 then ninf else nan
  | ninf, fin b => if 0 < b then ninf else if b < 0 then inf else nan
  | fin a, ninf => if 0 < a then ninf else if a < 0 then inf else nan
  | fin a, fin b => fin (a * b)

/-- IEEE division (numpy `/`): NaN absorbs, `inf/inf = NaN`, `0/0 = NaN`,
finite nonzero over zero gives a signed infinity (numpy emits a warning and
returns `inf`), finite over infinity gives 0. -/
def div : Fl → Fl → Fl
  | nan, _ => nan
  | _, nan => nan
  | inf, inf => nan
  | inf, ninf => nan
  | ninf, inf => nan
  | ninf, ninf => nan
  | inf, fin b => if 0 ≤ b then inf else ninf
  | ninf, fin b => if 0 ≤ b then ninf else inf
  | fin _, inf => fin 0
  | fin _, ninf => fin 0
  | fin a, fin b =>
      if b = 0 then (if a = 0 then nan else if 0 < a then inf else ninf)
      else fin (a / b)

/-- IEEE natural power (numpy `**` with a non-negative integer exponent):
`x ** 0 = 1` for every `x` including NaN (numpy semantics). -/
def npow (x : Fl) (n : ℕ) : Fl :=
  if n = 0 then fin 1 else
    match x with
    | nan => nan
    | inf => inf
    | ninf => if n % 2 = 0 then inf else ninf
    | fin a => fin (a ^ n)

/-- IEEE integer power (numpy `**` with an integer exponent, used as
`** -2` by the sampling theory): a negative exponent is one over the
positive power, so `0.0 ** -2 = inf`. -/
def zpow (x : Fl) (n : ℤ) : Fl :=
  if n = 0 then fin 1
  else if 0 < n then x.npow n.toNat
  else (fin 1).div (x.npow (-n).toNat)

/-- numpy `np.abs`. -/
def absF : Fl → Fl
  | nan => nan
  | inf => inf
  | ninf => inf
  | fin a => fin |a|

/-- numpy `np.maximum`: propagates NaN from either argument. -/
def maxF : Fl → Fl → Fl
  | nan, _ => nan
  | _, nan => nan
  | inf, _ => inf
  | _, inf => inf
  | ninf, b => b
  | a, ninf => a
  | fin a, fin b => fin (max a b)

/-- numpy `np.ceil`. -/
def ceilF : Fl → Fl
  | nan => nan
  | inf => inf
  | ninf => ninf
  | fin a => fin ⌈a⌉

/-- NaN test (numpy `np.isnan`). -/
def isNan : Fl → Bool
  | nan => true
  | _ => false

/-- numpy `np.sum` over a 1-d array: left fold of `+` starting from `0.0`. -/
def sumL (l : List Fl) : Fl := l.foldl add (fin 0)

instance : Add Fl := ⟨add⟩
instance : Mul Fl := ⟨mul⟩
instance : Neg Fl := ⟨neg⟩
instance : Sub Fl := ⟨sub⟩
instance : Div Fl := ⟨div⟩

end Fl

/-- IEEE square root structure (numpy `np.sqrt`), with the numeric value on
non-negative finite arguments supplied by the abstract parameter `rsqrt`:
NaN on NaN or negative arguments, `inf` on `inf`. -/
def fsqrt (rsqrt : ℚ → ℚ) : Fl → Fl
  | Fl.nan => Fl.nan
  | Fl.inf => Fl.inf
  | Fl.ninf => Fl.nan
  | Fl.fin q => if q < 0 then Fl.nan else Fl.fin (rsqrt q)

/-- `compute_raw_moments(psums, M)` (mimc.py:95-105): rows are levels and
columns are moment orders; a level with `M = 0` yields NaN in every column,
otherwise every column of the row is divided by the sample count. -/
def compute_raw_moments (psums : List (List Fl)) (M : List ℕ) : List (List Fl) :=
  List.zipWith
    (fun row m =>
      if m = 0 then row.map (fun _ => Fl.nan)
      else row.map (fun x => x.div (Fl.fin (m : ℚ))))
    psums M

/-- `compute_central_moment(psums, M, moment)` (mimc.py:107-127): for
`moment = 1` it returns the first column of the raw moments directly; for a
higher order it applies the binomial expansion around the first raw moment
(the code after the two identical `return val` statements is dead and is
not modelled). -/
def compute_central_moment (psums : List (List Fl)) (M : List ℕ) (moment : ℕ) :
    List Fl :=
  let raw := compute_raw_moments psums M
  if moment = 1 then raw.map (fun row => row.getD 0 Fl.nan)
  else
    raw.map (fun row =>
      let r0 := row.getD 0 Fl.nan
      let first := (r0.npow moment).mul (Fl.fin ((-1 : ℚ) ^ moment))
      (List.range moment).foldl
        (fun acc k0 =>
          let k := k0 + 1
          acc.add
            (((row.getD (k - 1) Fl.nan).mul (r0.npow (moment - k))).mul
              (Fl.fin ((moment.choose k : ℚ) * (-1 : ℚ) ^ (moment - k)))))
        first)

/-- Cartesian product of a list of choice lists, in `itertools.product`
order (rightmost factor varies fastest). -/
def listProduct : List (List ℕ) → List (List ℕ)
  | [] => [[]]
  | s :: rest => s.flatMap (fun a => (listProduct rest).map (fun e => a :: e))

/-- `expand_delta(lvl)` (mimc.py:1186-1209): returns the pair
`(mods, corner levels)` of the multi-dimensional difference estimator.  The
seed for a coordinate is `[0]` when the coordinate is `0` and `[0, 1]`
otherwise; the sign is computed by the source's modular-arithmetic formula. -/
def expand_delta (lvl : List ℕ) : List ℤ × List (List ℤ) :=
  let seeds := lvl.map (fun x => if x = 0 then ([0] : List ℕ) else [0, 1])
  let inds := listProduct seeds
  (inds.map (fun e =>
      (2 * (lvl.sum : ℤ) % 2 - 1) * (2 * ((e.sum : ℤ) % 2) - 1)),
   inds.map (fun e => List.zipWith (fun (a b : ℕ) => (a : ℤ) - (b : ℤ)) lvl e))

/-- The corner enumeration as the specification words it: `e` ranges over
`{0,1}` in exactly the dimensions where the level's coordinate is positive,
and over `{0}` elsewhere. -/
def delta_corners (lvl : List ℕ) : List (List ℕ) :=
  listProduct (lvl.map (fun x => if 0 < x then [0, 1] else [0]))

/-- `_calcTheoryM(TOL, theta, Vl, Wl, active_lvls, ceil, minM, Ca)`
(mimc.py:45-57), the optimal sample-allocation formula.  The statements
follow the source line by line: the allocation formula, then
`np.maximum(M, minM)`, then `M[np.isnan(M)] = minM`, then
`M[~act] = 0`, then optionally `np.ceil`.  The trailing
`astype(np.int)` cast is the identity on the values produced here. -/
def calcTheoryM (rsqrt : ℚ → ℚ) (TOL theta : Fl) (Vl Wl : List Fl)
    (active_lvls : List ℤ) (withCeil : Bool) (minM : ℚ) (Ca : Fl) : List Fl :=
  let n := Vl.length
  let act := fun l => (0 : ℤ) ≤ active_lvls.getD l 0
  let S := Fl.sumL (((List.range n).filter (fun l => decide (act l))).map
      (fun l => fsqrt rsqrt ((Wl.getD l Fl.nan).mul (Vl.getD l Fl.nan))))
  let c := Fl.zpow ((theta.mul TOL).div Ca) (-2)
  let M1 := (List.range n).map
      (fun l => (c.mul S).mul (fsqrt rsqrt ((Vl.getD l Fl.nan).div (Wl.getD l Fl.nan))))
  let M2 := M1.map (fun m => m.maxF (Fl.fin minM))
  let M3 := M2.map (fun m => if m.isNan then Fl.fin minM else m)
  let M4 := (List.range n).map (fun l => if act l then M3.getD l Fl.nan else Fl.fin 0)
  if withCeil then M4.map Fl.ceilF else M4

/-- The bundle of fitted convergence-rate constants (`Bunch` assigned to
`itr.Q`); only its identity matters for the frame claims. -/
structure QBunch where
  W : Fl
  S : Fl
  theta : Fl
deriving DecidableEq

/-- `MIMCItrData` (mimc.py:152-427): the per-iteration statistical state.
`lvls` stands for the external `setutil.VarSizeList` (the core only uses its
length and dense contents); the power-sum tables are `none` until lazily
allocated; rows are levels and columns are moment orders (`moments` many). -/
structure MIMCItrData where
  lvls : List (List ℕ)
  lvls_count : ℕ
  moments : ℕ
  psums_delta : Option (List (List Fl))
  psums_fine : Option (List (List Fl))
  tT : List Fl
  tW : List Fl
  M : List ℕ
  weights : List Fl
  active_lvls : List ℤ
  Vl_estimate : List Fl
  bias : Fl
  stat_error : Fl
  TOL : Option Fl
  Q : Option QBunch
deriving DecidableEq

/-- `calcDeltaCentralMoment(moment, weighted=True)` (mimc.py:247-255):
weights each level's delta central moment by `weight ** moment`; returns the
empty array when the delta power sums are not allocated. -/
def calcDeltaCentralMoment (itr : MIMCItrData) (moment : ℕ) : List Fl :=
  match itr.psums_delta with
  | none => []
  | some t =>
      List.zipWith (fun w b => (Fl.npow w moment).mul b) itr.weights
        (compute_central_moment t itr.M moment)

/-- `calcFineCentralMoment(moment, weighted=True)` (mimc.py:257-265): same
but from the fine power sums; the source guards on `psums_delta is None`
(not `psums_fine`), which is preserved here; the case of allocated delta
sums with unallocated fine sums crashes in the source and is mapped to the
empty array. -/
def calcFineCentralMoment (itr : MIMCItrData) (moment : ℕ) : List Fl :=
  match itr.psums_delta, itr.psums_fine with
  | none, _ => []
  | some _, none => []
  | some _, some tf =>
      List.zipWith (fun w b => (Fl.npow w moment).mul b) itr.weights
        (compute_central_moment tf itr.M moment)

/-- `calcEl(moment, active_only=False, weighted=True)` (mimc.py:216-223):
delta central moment, overridden by the fine central moment at base levels
(`active = 0`) and by NaN (the float image of the assigned `None`) at
inactive levels (`active < 0`). -/
def calcEl (itr : MIMCItrData) (moment : ℕ) : List Fl :=
  match itr.psums_delta with
  | none => []
  | some _ =>
    let D := calcDeltaCentralMoment itr moment
    let Fm := calcFineCentralMoment itr moment
    (List.range itr.lvls_count).map (fun l =>
      let a := itr.active_lvls.getD l 0
      if a < 0 then Fl.nan
      else if a = 0 then Fm.getD l Fl.nan
      else D.getD l Fl.nan)

/-- `calcVl()` (mimc.py:225-226). -/
def calcVl (itr : MIMCItrData) : List Fl := calcEl itr 2

/-- The Python identity test `e is None` applied to an element of a numpy
float array.  Assigning `None` into a float array stores NaN, and
`np.float64 nan is None` is `False`, so on the float data path this test
never succeeds. -/
def isPyNone (_ : Fl) : Bool := false

/-- The boundary-restricted bias terms of `estimate_bias_bnd`
(mimc.py:1383-1392): `calcEl()` with base levels forced to `inf`,
restricted to the levels flagged by the external `is_boundary()` mask
(supplied as the argument `isBnd`). -/
def bias_bnd_terms (itr : MIMCItrData) (isBnd : List Bool) : List Fl :=
  let El := calcEl itr 1
  let Elp := (List.range itr.lvls_count).map
      (fun l => if itr.active_lvls.getD l 0 = 0 then Fl.inf else El.getD l Fl.nan)
  ((List.range itr.lvls_count).filter (fun l => isBnd.getD l false)).map
    (fun l => Elp.getD l Fl.nan)

/-- `estimate_bias_bnd(run)` (mimc.py:1383-1392) with the default norm
`np.abs`: the absolute value of the sum of the boundary-restricted terms;
the source's `any(e is None for e in El_bnd)` guard is kept verbatim via
`isPyNone`. -/
def estimate_bias_bnd (itr : MIMCItrData) (isBnd : List Bool) : Fl :=
  let Elbnd := bias_bnd_terms itr isBnd
  if Elbnd.any isPyNone then Fl.inf else Fl.absF (Fl.sumL Elbnd)

/-- The recomputed per-level variance estimate of `_estimateAll`
(mimc.py:865-873), non-Bayesian branch with the default norm `np.abs`:
a fresh NaN-filled array whose entries at levels with `active >= 0` are
`|calcVl()|`. -/
def estimateAll_Vl (itr : MIMCItrData) : List Fl :=
  let V := calcVl itr
  (List.range itr.lvls_count).map
    (fun l => if 0 ≤ itr.active_lvls.getD l 0 then Fl.absF (V.getD l Fl.nan) else Fl.nan)

/-- The combined statistical error of `_estimateAll` (mimc.py:863-878):
NaN when fewer than 2 moments are tracked; otherwise `inf` when some level
with `active >= 0` has zero samples, else
`Ca * sqrt(sum over active levels of Vl_estimate / M)`. -/
def estimateAll_stat (rsqrt : ℚ → ℚ) (itr : MIMCItrData) (Ca : Fl) : Fl :=
  if 2 ≤ itr.moments then
    let Vl := estimateAll_Vl itr
    if (List.range itr.lvls_count).any
        (fun l => decide ((0 : ℤ) ≤ itr.active_lvls.getD l 0) && (itr.M.getD l 0 == 0))
    then Fl.inf
    else Ca.mul (fsqrt rsqrt (Fl.sumL
      (((List.range itr.lvls_count).filter
          (fun l => decide ((0 : ℤ) ≤ itr.active_lvls.getD l 0))).map
        (fun l => (Vl.getD l Fl.nan).div (Fl.fin (itr.M.getD l 0 : ℚ))))))
  else Fl.nan

/-- Result of `_estimateQParams` (mimc.py:807-835): either a silent return
(fitting disabled or no samples at all), a raised exception, or the fitted
constants `Q.W` and `Q.S`. -/
inductive QParamsResult where
  | noop : QParamsResult
  | raised : QParamsResult
  | fitted (W S : Fl) : QParamsResult
deriving DecidableEq

/-- Whether `_estimateQParams` raised. -/
def QParamsResult.isRaised : QParamsResult → Bool
  | raised => true
  | _ => false

/-- `_estimateQParams` (mimc.py:807-835).  `fpow` is the abstract float
power `x ** y` (transcendental in general), `hl i` is `fn.Hierarchy`
evaluated at level `i`, `Qw`/`Qs` are the scalars `Q.w[0]` and `Q.s[0]`,
and the default norm `np.abs` is used.  `M.length` is the level count
`lvls_count` (every per-level array has one row per level).  The final
guard models `bayes_w_sig > 0 or bayes_s_sig > 0`, whose branch raises. -/
def estimateQParams (fpow : Fl → Fl → Fl) (lsq : Bool) (wsig ssig : ℚ)
    (M : List ℕ) (psd : List (List Fl)) (hl : ℕ → Fl) (Qw Qs : Fl)
    (fitLvls : ℕ) : QParamsResult :=
  if lsq = false then .noop
  else if M.sum = 0 then .noop
  else if (M.length : ℤ) - 1 ≤ 1 then .raised
  else
    let count := M.length
    let L : ℤ := (count : ℤ) - 1
    let included := (List.range count).filter
        (fun i => decide (0 < M.getD i 0) && decide (max 1 (L - (fitLvls : ℤ)) ≤ (i : ℤ)))
    let s1 := fun i => (psd.getD i []).getD 0 Fl.nan
    let s2 := fun i => (psd.getD i []).getD 1 Fl.nan
    let t1 := fun i => (fpow (hl (i - 1)) Qw).sub (fpow (hl i) Qw)
    let t2 := fun i => Fl.zpow
        ((fpow (hl (i - 1)) (Qs.div (Fl.fin 2))).sub
          (fpow (hl i) (Qs.div (Fl.fin 2)))) (-2)
    let W := Fl.absF
        ((Fl.sumL (included.map (fun i => ((s1 i).mul (t1 i)).mul (t2 i)))).div
          (Fl.sumL (included.map
            (fun i => ((Fl.fin (M.getD i 0 : ℚ)).mul ((t1 i).npow 2)).mul (t2 i)))))
    let S := ((Fl.sumL (included.map (fun i =>
          (Fl.absF ((s2 i).mul (t2 i))).sub
            (Fl.absF ((s1 i).mul ((((W.mul (t1 i)).mul (Fl.fin 2)).mul (t2 i)))))))).add
        (Fl.sumL (included.map (fun i =>
          (((Fl.fin (M.getD i 0 : ℚ)).mul (W.npow 2)).mul ((t1 i).npow 2)).mul (t2 i))))).div
        (Fl.sumL (included.map (fun i => Fl.fin (M.getD i 0 : ℚ))))
    if 0 < wsig ∨ 0 < ssig then .raised else .fitted W S

/-- `total_error_est` (mimc.py:334-336). -/
def total_error_est (itr : MIMCItrData) : Fl :=
  itr.bias.add (if itr.stat_error.isNan then Fl.fin 0 else itr.stat_error)

/-- `zero_samples()` with `ind=None` (mimc.py:338-346): zero the sample
counts, times, work and (when allocated) both power-sum tables in place,
preserving shapes. -/
def zero_samples (itr : MIMCItrData) : MIMCItrData :=
  { itr with
    M := List.replicate itr.M.length 0,
    tT := List.replicate itr.tT.length (Fl.fin 0),
    tW := List.replicate itr.tW.length (Fl.fin 0),
    psums_delta := itr.psums_delta.map
      (fun t => t.map (fun row => List.replicate row.length (Fl.fin 0))),
    psums_fine := itr.psums_fine.map
      (fun t => t.map (fun row => List.replicate row.length (Fl.fin 0))) }

/-- numpy `ndarray.resize(n, ...)` on the leading axis: keep the first `n`
rows (truncating if necessary) and zero-fill the rest. -/
def resizePad (l : List α) (n : ℕ) (z : α) : List α :=
  l.take n ++ List.replicate (n - l.length) z

/-- Slice assignment `arr[a:] = v` on an array (the source assigns
`[lvls_count:new_count]` where `new_count` is the array's length after the
resize). -/
def assignTail (l : List α) (a : ℕ) (v : α) : List α :=
  l.take a ++ List.replicate (l.length - a) v

/-- `_levels_added()` (mimc.py:311-329): if the level list grew, resize
every per-level array (and the power-sum tables when allocated) to the new
count, flag the new levels active (`1`) and give them combination weight
`1`.  The source's `assert new_count >= lvls_count` is reflected in the
theorems' hypotheses. -/
def levels_added (itr : MIMCItrData) : MIMCItrData :=
  let n := itr.lvls.length
  if n = itr.lvls_count then itr
  else
    { itr with
      psums_delta := itr.psums_delta.map
        (fun t => resizePad t n (List.replicate itr.moments (Fl.fin 0))),
      psums_fine := itr.psums_fine.map
        (fun t => resizePad t n (List.replicate itr.moments (Fl.fin 0))),
      Vl_estimate := resizePad itr.Vl_estimate n (Fl.fin 0),
      tT := resizePad itr.tT n (Fl.fin 0),
      tW := resizePad itr.tW n (Fl.fin 0),
      M := resizePad itr.M n 0,
      weights := assignTail (resizePad itr.weights n (Fl.fin 0)) itr.lvls_count (Fl.fin 1),
      active_lvls := assignTail (resizePad itr.active_lvls n 0) itr.lvls_count 1,
      lvls_count := n }

/-- `lvls_add_from_list(inds)` (mimc.py:380-382).  Modelled from the spec:
the external `setutil.VarSizeList.add_from_list` (LevelSet `addFromList`,
not under src/) appends the given indices to the ordered level list; the
core then runs `_levels_added`. -/
def lvls_add_from_list (itr : MIMCItrData) (inds : List (List ℕ)) : MIMCItrData :=
  levels_added { itr with lvls := itr.lvls ++ inds }

/-- Shape invariant of an iteration state: every per-level array has
exactly `lvls_count` rows (`Bool`-valued so concrete witnesses can be
checked by `decide`). -/
def goodShape (itr : MIMCItrData) : Bool :=
  (itr.lvls.length == itr.lvls_count) &&
  (itr.M.length == itr.lvls_count) &&
  (itr.tT.length == itr.lvls_count) &&
  (itr.tW.length == itr.lvls_count) &&
  (itr.weights.length == itr.lvls_count) &&
  (itr.active_lvls.length == itr.lvls_count) &&
  (itr.Vl_estimate.length == itr.lvls_count) &&
  itr.psums_delta.all (fun t => t.length == itr.lvls_count) &&
  itr.psums_fine.all (fun t => t.length == itr.lvls_count)

/-- A small two-level iteration state used to evaluate the bias estimator
and the level-addition bookkeeping on concrete data: both levels active,
one sample each, first-moment delta sums `1` and `-1`. -/
def exItrA : MIMCItrData := {
  lvls := [[0], [1]], lvls_count := 2, moments := 1,
  psums_delta := some [[Fl.fin 1], [Fl.fin (-1)]],
  psums_fine := some [[Fl.fin 1], [Fl.fin (-1)]],
  tT := [Fl.fin 0, Fl.fin 0], tW := [Fl.fin 0, Fl.fin 0],
  M := [1, 1], weights := [Fl.fin 1, Fl.fin 1], active_lvls := [1, 1],
  Vl_estimate := [Fl.fin 0, Fl.fin 0], bias := Fl.inf, stat_error := Fl.inf,
  TOL := none, Q := none }

/-- `exItrA` with the second level unsampled, so its level expectation is
undefined (NaN). -/
def exItrB : MIMCItrData := { exItrA with M := [1, 0] }

/-- Triangular numbers, `tri j = j * (j + 1) / 2`; the exponent
`(L - ℓ) * (L + 1 - ℓ) / 2` of the ML2R weight formula. -/
def tri : ℕ → ℕ
  | 0 => 0
  | n + 1 => tri n + (n + 1)

/-- The q-Pochhammer product `(q; q)_n = prod_(k=1..n) (1 - q^k)`; the
`denom` array of `calc_ml2r_weights` with `q = exp (-α)`. -/
noncomputable def qprod (q : ℝ) (n : ℕ) : ℝ :=
  ∏ k ∈ Finset.range n, (1 - q ^ (k + 1))

/-- `denom[n]` of `calc_ml2r_weights` (mimc.py:63):
`denom[0] = 1`, `denom[n] = prod_(k=0..n-1) (1 - exp(-α (k+1)))`. -/
noncomputable def ml2r_denom (α : ℝ) (n : ℕ) : ℝ :=
  ∏ k ∈ Finset.range n, (1 - Real.exp (-α * (k + 1)))

/-- The un-accumulated ML2R weight `w[ℓ]` (mimc.py:64):
`(-1)^(L-ℓ) * exp(-α (L-ℓ) (L+1-ℓ) / 2) / (denom[ℓ] denom[L-ℓ])`.
The code is modelled over the reals (rounding ignored). -/
noncomputable def ml2r_w (α : ℝ) (L ℓ : ℕ) : ℝ :=
  (-1 : ℝ) ^ (L - ℓ) *
    Real.exp (-α * ((L : ℝ) - ℓ) * ((L : ℝ) + 1 - ℓ) / 2) /
    (ml2r_denom α ℓ * ml2r_denom α (L - ℓ))

/-- `calc_ml2r_weights(alpha, L)` (mimc.py:60-65): the reverse cumulative
sum of `w`, so entry `ℓ` is `sum_(k=ℓ..L) w[k]`. -/
noncomputable def calc_ml2r_weights (α : ℝ) (L : ℕ) : List ℝ :=
  (List.range (L + 1)).map (fun ℓ => ∑ k ∈ Finset.Ico ℓ (L + 1), ml2r_w α L k)

/-! ## Basic facts about the float model -/

theorem Fl.add_fin_zero (x : Fl) : x.add (Fl.fin 0) = x := by
  cases x <;> simp [Fl.add]

theorem Fl.nan_add (x : Fl) : Fl.nan.add x = Fl.nan := by cases x <;> rfl

theorem Fl.add_nan (x : Fl) : x.add Fl.nan = Fl.nan := by
  cases x <;> rfl

theorem Fl.nan_mul (x : Fl) : Fl.nan.mul x = Fl.nan := by cases x <;> rfl

theorem Fl.mul_nan (x : Fl) : x.mul Fl.nan = Fl.nan := by
  cases x <;> rfl

theorem Fl.nan_div (x : Fl) : Fl.nan.div x = Fl.nan := by cases x <;> rfl

theorem Fl.isNan_iff (x : Fl) : x.isNan = true ↔ x = Fl.nan := by
  cases x <;> simp [Fl.isNan]

/-- If NaN occurs anywhere in a numpy sum, the sum is NaN. -/
theorem Fl.sumL_of_nan_mem (l : List Fl) (h : Fl.nan ∈ l) : Fl.sumL l = Fl.nan := by
  suffices H : ∀ acc, (Fl.nan ∈ l ∨ acc = Fl.nan) → List.foldl Fl.add acc l = Fl.nan by
    exact H _ (Or.inl h)
  clear h
  induction l with
  | nil =>
      intro acc h
      rcases h with h | h
      · simp at h
      · simpa using h
  | cons x xs ih =>
      intro acc h
      simp only [List.foldl_cons]
      apply ih
      rcases h with h | h
      · rcases List.mem_cons.mp h with h | h
        · right; rw [← h] at *; exact Fl.add_nan acc
        · left; exact h
      · right; rw [h]; exact Fl.nan_add x

theorem Fl.add_no_special (a b : Fl) (ha1 : a ≠ Fl.nan) (ha2 : a ≠ Fl.ninf)
    (hb1 : b ≠ Fl.nan) (hb2 : b ≠ Fl.ninf) :
    (a.add b ≠ Fl.nan ∧ a.add b ≠ Fl.ninf) ∧
      ((a = Fl.inf ∨ b = Fl.inf) → a.add b = Fl.inf) := by
  cases a <;> cases b <;> simp_all [Fl.add]

/-- A numpy sum containing `inf` but neither NaN nor `-inf` is `inf`. -/
theorem Fl.sumL_of_inf_mem (l : List Fl) (hn : Fl.nan ∉ l) (hm : Fl.ninf ∉ l)
    (hi : Fl.inf ∈ l) : Fl.sumL l = Fl.inf := by
  suffices H : ∀ acc, acc ≠ Fl.nan → acc ≠ Fl.ninf → (Fl.inf ∈ l ∨ acc = Fl.inf) →
      List.foldl Fl.add acc l = Fl.inf by
    exact H _ (by simp) (by simp) (Or.inl hi)
  clear hi
  induction l with
  | nil =>
      intro acc _ _ h
      rcases h with h | h
      · simp at h
      · simpa using h
  | cons x xs ih =>
      intro acc h1 h2 h3
      have hx1 : x ≠ Fl.nan := fun h => hn (h ▸ List.mem_cons_self x xs)
      have hx2 : x ≠ Fl.ninf := fun h => hm (h ▸ List.mem_cons_self x xs)
      have hxs1 : Fl.nan ∉ xs := fun h => hn (List.mem_cons_of_mem x h)
      have hxs2 : Fl.ninf ∉ xs := fun h => hm (List.mem_cons_of_mem x h)
      have hcase := Fl.add_no_special acc x h1 h2 hx1 hx2
      simp only [List.foldl_cons]
      apply ih hxs1 hxs2 (acc.add x) hcase.1.1 hcase.1.2
      rcases h3 with h3 | h3
      · rcases List.mem_cons.mp h3 with h3 | h3
        · right; exact hcase.2 (Or.inr h3.symm)
        · left; exact h3
      · right; exact hcase.2 (Or.inl h3)

theorem getD_map_range {α : Type} (f : ℕ → α) (n l : ℕ) (d : α) (h : l < n) :
    (((List.range n).map f).getD l d) = f l := by
  rw [List.getD_eq_getElem?_getD]
  simp [List.getElem?_map, List.getElem?_range h]

/-! ## Claim theorems -/

/-- C8: the total error estimate exposed to the termination check equals
bias plus statistical error, except that a NaN statistical error is treated
as 0, so the total then equals the bias alone. -/
theorem total_error_est_spec (itr : MIMCItrData) :
    total_error_est itr =
      if itr.stat_error.isNan then itr.bias else itr.bias.add itr.stat_error := by
  unfold total_error_est
  by_cases h : itr.stat_error.isNan <;> simp [h, Fl.add_fin_zero]

/-- C10: `zero_samples` with no index zeroes every level's sample count,
elapsed time, elapsed work and both power-sum tables (when allocated,
preserving their shapes), and leaves the level set, level count, active
flags, combination weights, bias, statistical error, tolerance and fitted
constants unchanged. -/
theorem zero_samples_frame (itr : MIMCItrData) :
    (zero_samples itr).M = List.replicate itr.M.length 0 ∧
    (zero_samples itr).tT = List.replicate itr.tT.length (Fl.fin 0) ∧
    (zero_samples itr).tW = List.replicate itr.tW.length (Fl.fin 0) ∧
    (zero_samples itr).psums_delta =
      itr.psums_delta.map (fun t => t.map (fun row => List.replicate row.length (Fl.fin 0))) ∧
    (zero_samples itr).psums_fine =
      itr.psums_fine.map (fun t => t.map (fun row => List.replicate row.length (Fl.fin 0))) ∧
    (zero_samples itr).lvls = itr.lvls ∧
    (zero_samples itr).lvls_count = itr.lvls_count ∧
    (zero_samples itr).active_lvls = itr.active_lvls ∧
    (zero_samples itr).weights = itr.weights ∧
    (zero_samples itr).bias = itr.bias ∧
    (zero_samples itr).stat_error = itr.stat_error ∧
    (zero_samples itr).TOL = itr.TOL ∧
    (zero_samples itr).Q = itr.Q := by
  refine ⟨?_, ?_, ?_, ?_, ?_, ?_, ?_, ?_, ?_, ?_, ?_, ?_, ?_⟩ <;> rfl

/-- C6: the central moment of order 1 is the first column of the raw
moments, i.e. the first power sum divided elementwise by the sample count,
NaN where the count is zero; no centering is applied. -/
theorem central_moment_one_eq_raw (psums : List (List Fl)) (M : List ℕ) :
    compute_central_moment psums M 1 =
      (compute_raw_moments psums M).map (fun row => row.getD 0 Fl.nan) ∧
    compute_central_moment psums M 1 =
      List.zipWith
        (fun (row : List Fl) (m : ℕ) => if m = 0 then Fl.nan
          else (row.getD 0 Fl.nan).div (Fl.fin (m : ℚ))) psums M := by
  have h1 : compute_central_moment psums M 1 =
      (compute_raw_moments psums M).map (fun row => row.getD 0 Fl.nan) := by
    simp [compute_central_moment]
  refine ⟨h1, ?_⟩
  rw [h1]
  clear h1
  unfold compute_raw_moments
  induction psums generalizing M with
  | nil => cases M <;> simp
  | cons row rows ih =>
      cases M with
      | nil => simp
      | cons m ms =>
          simp only [List.zipWith_cons_cons, List.map_cons, List.cons.injEq]
          refine ⟨?_, ih ms⟩
          by_cases hm : m = 0
          · cases row <;> simp [hm]
          · cases row <;> simp [hm, Fl.nan_div]

/-- C7: `expand_delta` produces exactly the corner points `level - e` with
`e` ranging (in `itertools.product` order) over `{0,1}` in the dimensions
where the coordinate is positive, each with coefficient `(-1)^(parity of e)`;
there are `2^k` corners for `k` positive coordinates; in particular
`expand_delta [0] = ([+1], [[0]])` and
`expand_delta [2] = ([+1, -1], [[2], [1]])`. -/
theorem expand_delta_spec :
    (∀ lvl : List ℕ,
      (expand_delta lvl).1 = (delta_corners lvl).map (fun e => (-1 : ℤ) ^ e.sum) ∧
      (expand_delta lvl).2 = (delta_corners lvl).map
        (fun e => List.zipWith (fun (a b : ℕ) => (a : ℤ) - (b : ℤ)) lvl e) ∧
      (delta_corners lvl).length = 2 ^ ((lvl.filter (fun x => decide (0 < x))).length)) ∧
    expand_delta [0] = ([1], [[0]]) ∧
    expand_delta [2] = ([1, -1], [[2], [1]]) := by
  have hseeds : ∀ lvl : List ℕ,
      lvl.map (fun x => if x = 0 then ([0] : List ℕ) else [0, 1]) =
        lvl.map (fun x => if 0 < x then ([0, 1] : List ℕ) else [0]) := by
    intro lvl
    apply List.map_congr_left
    intro x _
    rcases Nat.eq_zero_or_pos x with h | h
    · simp [h]
    · simp [h, Nat.pos_iff_ne_zero.mp h]
  have hmods : ∀ (S : ℕ) (e : List ℕ),
      (2 * (S : ℤ) % 2 - 1) * (2 * ((e.sum : ℤ) % 2) - 1) = (-1 : ℤ) ^ e.sum := by
    intro S e
    have h2 : 2 * (S : ℤ) % 2 = 0 := Int.mul_emod_right 2 S
    rw [h2]
    rcases Nat.even_or_odd e.sum with h | h
    · have hm : e.sum % 2 = 0 := Nat.even_iff.mp h
      have hmz : (e.sum : ℤ) % 2 = 0 := by
        have := congrArg (Nat.cast : ℕ → ℤ) hm
        push_cast at this
        simpa using this
      rw [hmz, h.neg_one_pow]
      norm_num
    · have hm : e.sum % 2 = 1 := Nat.odd_iff.mp h
      have hmz : (e.sum : ℤ) % 2 = 1 := by
        have := congrArg (Nat.cast : ℕ → ℤ) hm
        push_cast at this
        simpa using this
      rw [hmz, h.neg_one_pow]
      norm_num
  have hlen : ∀ ss : List (List ℕ),
      (listProduct ss).length = (ss.map List.length).prod := by
    intro ss
    induction ss with
    | nil => simp [listProduct]
    | cons s rest ih =>
        simp only [listProduct, List.map_cons, List.prod_cons, List.length_flatMap,
          Function.comp_def, List.length_map]
        rw [List.map_const', List.sum_replicate, smul_eq_mul, ih]
  refine ⟨fun lvl => ⟨?_, ?_, ?_⟩, by decide, by decide⟩
  · unfold expand_delta delta_corners
    rw [hseeds]
    apply List.map_congr_left
    intro e _
    exact hmods lvl.sum e
  · unfold expand_delta delta_corners
    rw [hseeds]
  · unfold delta_corners
    rw [hlen]
    induction lvl with
    | nil => simp
    | cons x xs ih =>
        rw [List.map_map] at ih
        rcases Nat.eq_zero_or_pos x with h | h
        · simp [h, List.filter_cons, ih]
        · simp [List.filter_cons, h, ih, pow_succ, Nat.mul_comm]

theorem Fl.nan_maxF (x : Fl) : Fl.nan.maxF x = Fl.nan := by
  cases x <;> rfl

theorem fsqrt_nan (rsqrt : ℚ → ℚ) : fsqrt rsqrt Fl.nan = Fl.nan := rfl

/-- C1 (amended): in `_calcTheoryM`, every inactive level (`flag < 0`)
receives a computed sample count of exactly 0; an active level whose
variance estimate is NaN receives `minM` (rounded up when `ceil` is set),
not 0, because the NaN-replacement by `minM` happens before the
inactive-masking and only the latter writes zeros. -/
theorem calcTheoryM_inactive_and_nan
    (rsqrt : ℚ → ℚ) (TOL theta : Fl) (Vl Wl : List Fl) (active_lvls : List ℤ)
    (withCeil : Bool) (minM : ℚ) (Ca : Fl) (l : ℕ) (hlen : l < Vl.length) :
    (active_lvls.getD l 0 < 0 →
      (calcTheoryM rsqrt TOL theta Vl Wl active_lvls withCeil minM Ca).getD l Fl.nan
        = Fl.fin 0) ∧
    (0 ≤ active_lvls.getD l 0 → Vl.getD l Fl.nan = Fl.nan →
      (calcTheoryM rsqrt TOL theta Vl Wl active_lvls withCeil minM Ca).getD l Fl.nan
        = if withCeil then Fl.fin ((⌈minM⌉ : ℤ) : ℚ) else Fl.fin minM) := by
  simp only [calcTheoryM, List.map_map]
  constructor
  · intro hneg
    have hna : ¬ ((0 : ℤ) ≤ active_lvls.getD l 0) := not_le.mpr hneg
    cases withCeil with
    | false =>
        simp only [Bool.false_eq_true, if_false]
        rw [getD_map_range _ _ _ _ hlen]
        rw [if_neg hna]
    | true =>
        simp only [if_true]
        rw [getD_map_range _ _ _ _ hlen]
        simp only [Function.comp_apply]
        rw [if_neg hna]
        simp [Fl.ceilF]
  · intro hpos hnan
    have hkey : ∀ cS : Fl,
        (cS.mul (fsqrt rsqrt ((Vl.getD l Fl.nan).div (Wl.getD l Fl.nan)))).maxF
            (Fl.fin minM) = Fl.nan := by
      intro cS
      rw [hnan, Fl.nan_div, fsqrt_nan, Fl.mul_nan, Fl.nan_maxF]
    cases withCeil with
    | false =>
        simp only [Bool.false_eq_true, if_false]
        rw [getD_map_range _ _ _ _ hlen]
        rw [if_pos hpos, getD_map_range _ _ _ _ hlen]
        simp only [Function.comp_apply]
        rw [hkey]
        simp [Fl.isNan]
    | true =>
        simp only [if_true]
        rw [getD_map_range _ _ _ _ hlen]
        simp only [Function.comp_apply]
        rw [if_pos hpos, getD_map_range _ _ _ _ hlen]
        simp only [Function.comp_apply]
        rw [hkey]
        simp [Fl.isNan, Fl.ceilF]

unseal Rat.mul Rat.inv Rat.add Rat.sub in
/-- C1 (counterexample to the claim as stated): a single active level with
NaN variance; the computed sample count is `1` (the default `minM`), not
`0`. -/
theorem calcTheoryM_nan_counterexample :
    calcTheoryM (fun q => q) (Fl.fin 1) (Fl.fin (1 / 2)) [Fl.nan] [Fl.fin 1]
        [1] true 1 (Fl.fin 2) = [Fl.fin 1] ∧
    Fl.fin 1 ≠ Fl.fin 0 ∧
    ([Fl.nan].getD 0 Fl.nan).isNan = true ∧
    (0 : ℤ) ≤ ([1] : List ℤ).getD 0 0 := by
  refine ⟨by decide, by decide, by rfl, by decide⟩

/-- C1 (witness): the amended theorem applied to a concrete state with an
inactive level and an active NaN-variance level. -/
theorem calcTheoryM_inactive_and_nan_witness :
    (calcTheoryM (fun q => q) (Fl.fin 1) (Fl.fin (1 / 2)) [Fl.fin 1, Fl.nan]
        [Fl.fin 1, Fl.fin 1] [-1, 1] true 1 (Fl.fin 2)).getD 0 Fl.nan = Fl.fin 0 ∧
    (calcTheoryM (fun q => q) (Fl.fin 1) (Fl.fin (1 / 2)) [Fl.fin 1, Fl.nan]
        [Fl.fin 1, Fl.fin 1] [-1, 1] true 1 (Fl.fin 2)).getD 1 Fl.nan = Fl.fin 1 := by
  constructor
  · exact (calcTheoryM_inactive_and_nan (fun q => q) (Fl.fin 1) (Fl.fin (1 / 2))
      [Fl.fin 1, Fl.nan] [Fl.fin 1, Fl.fin 1] [-1, 1] true 1 (Fl.fin 2) 0
      (by decide)).1 (by decide)
  · have h := (calcTheoryM_inactive_and_nan (fun q => q) (Fl.fin 1) (Fl.fin (1 / 2))
      [Fl.fin 1, Fl.nan] [Fl.fin 1, Fl.fin 1] [-1, 1] true 1 (Fl.fin 2) 1
      (by decide)).2 (by decide) (by decide)
    simpa using h

/-- C2 (amended): `_estimateQParams` raises exactly when fitting is
enabled, at least one sample has been recorded overall, and the iteration
tracks at most 2 levels (`lvls_count - 1 <= 1`); the number of levels that
actually have samples plays no role.  (Stated under the default
configuration `bayes_w_sig <= 0`, `bayes_s_sig <= 0`.) -/
theorem estimateQParams_raises_iff (fpow : Fl → Fl → Fl) (lsq : Bool)
    (wsig ssig : ℚ) (M : List ℕ) (psd : List (List Fl)) (hl : ℕ → Fl)
    (Qw Qs : Fl) (fitLvls : ℕ) (hw : wsig ≤ 0) (hs : ssig ≤ 0) :
    (estimateQParams fpow lsq wsig ssig M psd hl Qw Qs fitLvls).isRaised = true ↔
      (lsq = true ∧ M.sum ≠ 0 ∧ M.length ≤ 2) := by
  unfold estimateQParams
  have hwn : ¬ (0 < wsig ∨ 0 < ssig) := by
    push_neg
    exact ⟨hw, hs⟩
  split_ifs with h1 h2 h3
  · simp [QParamsResult.isRaised, h1]
  · simp [QParamsResult.isRaised, h2]
  · have hlen : M.length ≤ 2 := by omega
    have hlsq : lsq = true := by simpa using h1
    simp [QParamsResult.isRaised, hlsq, h2, hlen]
  · have hlen2 : ¬ M.length ≤ 2 := by omega
    simp [QParamsResult.isRaised, hwn, hlen2]

unseal Rat.mul Rat.inv Rat.add Rat.sub in
/-- C2 (counterexample to the claim as stated): fitting enabled, three
levels tracked, one sample recorded, only one level has a positive sample
count — the function does not raise (it silently produces NaN fitted
constants). -/
theorem estimateQParams_claim_counterexample :
    (estimateQParams (fun x _ => x) true (-1) (-1) [5, 0, 0]
        [[Fl.fin 1, Fl.fin 1], [Fl.fin 0, Fl.fin 0], [Fl.fin 0, Fl.fin 0]]
        (fun _ => Fl.fin 1) (Fl.fin 1) (Fl.fin 1) 1000).isRaised = false ∧
    (([5, 0, 0] : List ℕ).filter (fun m => decide (0 < m))).length = 1 ∧
    ([5, 0, 0] : List ℕ).sum ≠ 0 := by
  refine ⟨by decide, by decide, by decide⟩

/-- C2 (witness): the amended characterization applied to a two-level
state where both levels have samples — the function raises although two
levels have positive sample counts. -/
theorem estimateQParams_raises_iff_witness :
    ((-1 : ℚ) ≤ 0) ∧
    ((estimateQParams (fun x _ => x) true (-1) (-1) [3, 3]
        [[Fl.fin 1, Fl.fin 1], [Fl.fin 1, Fl.fin 1]]
        (fun _ => Fl.fin 1) (Fl.fin 1) (Fl.fin 1) 1000).isRaised = true ↔
      (true = true ∧ ([3, 3] : List ℕ).sum ≠ 0 ∧ ([3, 3] : List ℕ).length ≤ 2)) :=
  ⟨by norm_num,
    estimateQParams_raises_iff (fun x _ => x) true (-1) (-1) [3, 3]
      [[Fl.fin 1, Fl.fin 1], [Fl.fin 1, Fl.fin 1]]
      (fun _ => Fl.fin 1) (Fl.fin 1) (Fl.fin 1) 1000 (by norm_num) (by norm_num)⟩

/-- C4: in the estimation step with at least 2 moments tracked
(non-Bayesian variance path, default norm), the combined statistical error
is `inf` as soon as some level with `active >= 0` has zero samples, and
otherwise equals `Ca * sqrt(sum over levels with active >= 0 of
Vl_estimate / M)` with the freshly recomputed variance estimate. -/
theorem estimateAll_stat_spec (rsqrt : ℚ → ℚ) (itr : MIMCItrData) (Ca : Fl)
    (hm : 2 ≤ itr.moments) :
    ((∃ l, l < itr.lvls_count ∧ 0 ≤ itr.active_lvls.getD l 0 ∧ itr.M.getD l 0 = 0) →
      estimateAll_stat rsqrt itr Ca = Fl.inf) ∧
    ((∀ l, l < itr.lvls_count → 0 ≤ itr.active_lvls.getD l 0 → itr.M.getD l 0 ≠ 0) →
      estimateAll_stat rsqrt itr Ca =
        Ca.mul (fsqrt rsqrt (Fl.sumL
          (((List.range itr.lvls_count).filter
              (fun l => decide ((0 : ℤ) ≤ itr.active_lvls.getD l 0))).map
            (fun l => ((estimateAll_Vl itr).getD l Fl.nan).div
              (Fl.fin (itr.M.getD l 0 : ℚ))))))) := by
  unfold estimateAll_stat
  rw [if_pos hm]
  constructor
  · rintro ⟨l, hl, ha, hM⟩
    rw [if_pos]
    apply List.any_eq_true.mpr
    refine ⟨l, List.mem_range.mpr hl, ?_⟩
    simp only [Bool.and_eq_true, decide_eq_true_eq, beq_iff_eq]
    exact ⟨ha, hM⟩
  · intro h
    rw [if_neg]
    intro hc
    rcases List.any_eq_true.mp hc with ⟨l, hlm, hcond⟩
    simp only [Bool.and_eq_true, decide_eq_true_eq, beq_iff_eq] at hcond
    exact h l (List.mem_range.mp hlm) hcond.1 hcond.2

unseal Rat.mul Rat.inv Rat.add Rat.sub in
/-- C4 (witness): a concrete two-level state with 2 moments where the
second (active) level has zero samples gives statistical error `inf`, and
the fully sampled variant gives the formula value. -/
theorem estimateAll_stat_spec_witness :
    estimateAll_stat (fun q => q) { exItrB with
      moments := 2,
      psums_delta := some [[Fl.fin 1, Fl.fin 1], [Fl.fin (-1), Fl.fin 1]],
      psums_fine := some [[Fl.fin 1, Fl.fin 1], [Fl.fin (-1), Fl.fin 1]] }
      (Fl.fin 2) = Fl.inf :=
  (estimateAll_stat_spec (fun q => q) _ (Fl.fin 2) (by decide)).1
    ⟨1, by decide, by decide, by decide⟩

/-- The `estimate_bias_bnd` guard `any(e is None)` never fires on the
float path, so the result is always `absF` of the boundary sum. -/
theorem estimate_bias_bnd_eq_abs_sum (itr : MIMCItrData) (isBnd : List Bool) :
    estimate_bias_bnd itr isBnd = Fl.absF (Fl.sumL (bias_bnd_terms itr isBnd)) := by
  unfold estimate_bias_bnd
  rw [if_neg]
  intro hc
  rcases List.any_eq_true.mp hc with ⟨x, _, hx⟩
  simp [isPyNone] at hx

/-- C3 (amended): the boundary-bound bias estimator returns the absolute
value of the *sum* of the boundary-restricted level expectations (base
levels forced to a `+inf` contribution, inactive levels NaN); an undefined
(NaN) boundary term makes the result NaN, not `+inf`; the result is `+inf`
when some boundary term is `+inf` (in particular a base level on the
boundary) and no boundary term is NaN or `-inf`. -/
theorem estimate_bias_bnd_characterization (itr : MIMCItrData) (isBnd : List Bool) :
    (estimate_bias_bnd itr isBnd = Fl.absF (Fl.sumL (bias_bnd_terms itr isBnd))) ∧
    (Fl.nan ∈ bias_bnd_terms itr isBnd → estimate_bias_bnd itr isBnd = Fl.nan) ∧
    (Fl.nan ∉ bias_bnd_terms itr isBnd → Fl.ninf ∉ bias_bnd_terms itr isBnd →
      Fl.inf ∈ bias_bnd_terms itr isBnd → estimate_bias_bnd itr isBnd = Fl.inf) ∧
    (∀ l, l < itr.lvls_count → itr.active_lvls.getD l 0 = 0 →
      isBnd.getD l false = true → Fl.inf ∈ bias_bnd_terms itr isBnd) := by
  refine ⟨estimate_bias_bnd_eq_abs_sum itr isBnd, ?_, ?_, ?_⟩
  · intro h
    rw [estimate_bias_bnd_eq_abs_sum, Fl.sumL_of_nan_mem _ h]
    rfl
  · intro h1 h2 h3
    rw [estimate_bias_bnd_eq_abs_sum, Fl.sumL_of_inf_mem _ h1 h2 h3]
    rfl
  · intro l hl ha hb
    unfold bias_bnd_terms
    refine List.mem_map.mpr ⟨l, ?_, ?_⟩
    · exact List.mem_filter.mpr ⟨List.mem_range.mpr hl, by simpa using hb⟩
    · rw [getD_map_range _ _ _ _ hl, if_pos ha]

unseal Rat.mul Rat.inv Rat.add Rat.sub in
/-- C3 (counterexample to the claim as stated): on `exItrA` the boundary
expectations are `1` and `-1`, so the sum of their absolute values is `2`
but the estimator returns `|1 + (-1)| = 0`; on `exItrB` a boundary term is
undefined (NaN) and the estimator returns NaN, not `+inf`. -/
theorem estimate_bias_bnd_counterexample :
    estimate_bias_bnd exItrA [true, true] = Fl.fin 0 ∧
    Fl.sumL ((bias_bnd_terms exItrA [true, true]).map Fl.absF) = Fl.fin 2 ∧
    Fl.fin 0 ≠ Fl.fin 2 ∧
    estimate_bias_bnd exItrB [true, true] = Fl.nan ∧
    (bias_bnd_terms exItrB [true, true]).any Fl.isNan = true ∧
    Fl.nan ≠ Fl.inf := by
  refine ⟨by decide, by decide, by decide, by decide, by decide, by decide⟩

unseal Rat.mul Rat.inv Rat.add Rat.sub in
/-- C3 (witness): the amended characterization applied to `exItrB`, whose
second boundary term is NaN. -/
theorem estimate_bias_bnd_characterization_witness :
    estimate_bias_bnd exItrB [true, true] = Fl.nan :=
  (estimate_bias_bnd_characterization exItrB [true, true]).2.1 (by decide)

theorem resizePad_of_le {α : Type} (l : List α) (n : ℕ) (z : α)
    (h : l.length ≤ n) :
    resizePad l n z = l ++ List.replicate (n - l.length) z := by
  unfold resizePad
  rw [List.take_of_length_le h]

theorem assignTail_append {α : Type} (l : List α) (k : ℕ) (z v : α) :
    assignTail (l ++ List.replicate k z) l.length v = l ++ List.replicate k v := by
  unfold assignTail
  rw [List.take_left, List.length_append, List.length_replicate]
  congr 2
  omega

/-- `_levels_added` on a state whose arrays all have `lvls_count` rows and
whose level list has grown by `k`: every array is zero-extended, the new
levels become active with weight 1, and the count becomes the new length. -/
theorem levels_added_spec (itr : MIMCItrData) (k : ℕ)
    (hlen : itr.lvls.length = itr.lvls_count + k)
    (hM : itr.M.length = itr.lvls_count)
    (htT : itr.tT.length = itr.lvls_count)
    (htW : itr.tW.length = itr.lvls_count)
    (hw : itr.weights.length = itr.lvls_count)
    (ha : itr.active_lvls.length = itr.lvls_count)
    (hV : itr.Vl_estimate.length = itr.lvls_count)
    (hpd : ∀ t, itr.psums_delta = some t → t.length = itr.lvls_count)
    (hpf : ∀ t, itr.psums_fine = some t → t.length = itr.lvls_count) :
    (levels_added itr).lvls = itr.lvls ∧
    (levels_added itr).lvls_count = itr.lvls_count + k ∧
    (levels_added itr).moments = itr.moments ∧
    (levels_added itr).M = itr.M ++ List.replicate k 0 ∧
    (levels_added itr).tT = itr.tT ++ List.replicate k (Fl.fin 0) ∧
    (levels_added itr).tW = itr.tW ++ List.replicate k (Fl.fin 0) ∧
    (levels_added itr).Vl_estimate = itr.Vl_estimate ++ List.replicate k (Fl.fin 0) ∧
    (levels_added itr).weights = itr.weights ++ List.replicate k (Fl.fin 1) ∧
    (levels_added itr).active_lvls = itr.active_lvls ++ List.replicate k 1 ∧
    (levels_added itr).psums_delta = itr.psums_delta.map
      (fun t => t ++ List.replicate k (List.replicate itr.moments (Fl.fin 0))) ∧
    (levels_added itr).psums_fine = itr.psums_fine.map
      (fun t => t ++ List.replicate k (List.replicate itr.moments (Fl.fin 0))) := by
  have hres : ∀ (l : List Fl), l.length = itr.lvls_count →
      resizePad l itr.lvls.length (Fl.fin 0) = l ++ List.replicate k (Fl.fin 0) := by
    intro l hl
    rw [resizePad_of_le l _ _ (by omega), hl, hlen]
    congr 2
    omega
  rcases Nat.eq_zero_or_pos k with hk | hk
  · subst hk
    have hcond : itr.lvls.length = itr.lvls_count := by omega
    unfold levels_added
    rw [if_pos hcond]
    refine ⟨rfl, by omega, rfl, by simp, by simp, by simp, by simp, by simp, by simp,
      ?_, ?_⟩
    · cases itr.psums_delta <;> simp
    · cases itr.psums_fine <;> simp
  · have hcond : ¬ itr.lvls.length = itr.lvls_count := by omega
    unfold levels_added
    rw [if_neg hcond]
    dsimp only
    refine ⟨rfl, by simpa using hlen, rfl, ?_, hres _ htT, hres _ htW, hres _ hV,
      ?_, ?_, ?_, ?_⟩
    · rw [resizePad_of_le _ _ _ (by omega), hM, hlen]
      congr 2
      omega
    · rw [resizePad_of_le _ _ _ (by omega), hw, hlen]
      have : itr.lvls_count + k - itr.lvls_count = k := by omega
      rw [this]
      calc assignTail (itr.weights ++ List.replicate k (Fl.fin 0)) itr.lvls_count
            (Fl.fin 1)
          = assignTail (itr.weights ++ List.replicate k (Fl.fin 0))
              itr.weights.length (Fl.fin 1) := by rw [hw]
        _ = itr.weights ++ List.replicate k (Fl.fin 1) := assignTail_append _ _ _ _
    · rw [resizePad_of_le _ _ _ (by omega), ha, hlen]
      have : itr.lvls_count + k - itr.lvls_count = k := by omega
      rw [this]
      calc assignTail (itr.active_lvls ++ List.replicate k 0) itr.lvls_count 1
          = assignTail (itr.active_lvls ++ List.replicate k 0)
              itr.active_lvls.length 1 := by rw [ha]
        _ = itr.active_lvls ++ List.replicate k 1 := assignTail_append _ _ _ _
    · cases hop : itr.psums_delta with
      | none => rfl
      | some t =>
          have ht := hpd t hop
          show some (resizePad t itr.lvls.length (List.replicate itr.moments (Fl.fin 0)))
            = some (t ++ List.replicate k (List.replicate itr.moments (Fl.fin 0)))
          congr 1
          rw [resizePad_of_le _ _ _ (by omega), ht, hlen]
          congr 2
          omega
    · cases hop : itr.psums_fine with
      | none => rfl
      | some t =>
          have ht := hpf t hop
          show some (resizePad t itr.lvls.length (List.replicate itr.moments (Fl.fin 0)))
            = some (t ++ List.replicate k (List.replicate itr.moments (Fl.fin 0)))
          congr 1
          rw [resizePad_of_le _ _ _ (by omega), ht, hlen]
          congr 2
          omega

/-- C9: after `lvls_add_from_list` (the external `add_from_list` modelled
as appending the new indices, then `_levels_added`), every per-level array
(and the power-sum tables when allocated) again has exactly `lvls_count`
rows, the count grows by the number of added levels (so it never
decreases), every newly added level starts with active flag 1 and
combination weight 1 (and 0 samples), and the entries of pre-existing
levels are unchanged (each array is its old value with a suffix appended). -/
theorem lvls_add_from_list_invariants (itr : MIMCItrData) (inds : List (List ℕ))
    (hg : goodShape itr = true) :
    goodShape (lvls_add_from_list itr inds) = true ∧
    (lvls_add_from_list itr inds).lvls_count = itr.lvls_count + inds.length ∧
    itr.lvls_count ≤ (lvls_add_from_list itr inds).lvls_count ∧
    (lvls_add_from_list itr inds).M = itr.M ++ List.replicate inds.length 0 ∧
    (lvls_add_from_list itr inds).tT =
      itr.tT ++ List.replicate inds.length (Fl.fin 0) ∧
    (lvls_add_from_list itr inds).tW =
      itr.tW ++ List.replicate inds.length (Fl.fin 0) ∧
    (lvls_add_from_list itr inds).Vl_estimate =
      itr.Vl_estimate ++ List.replicate inds.length (Fl.fin 0) ∧
    (lvls_add_from_list itr inds).weights =
      itr.weights ++ List.replicate inds.length (Fl.fin 1) ∧
    (lvls_add_from_list itr inds).active_lvls =
      itr.active_lvls ++ List.replicate inds.length 1 ∧
    (lvls_add_from_list itr inds).psums_delta = itr.psums_delta.map
      (fun t => t ++ List.replicate inds.length (List.replicate itr.moments (Fl.fin 0))) ∧
    (lvls_add_from_list itr inds).psums_fine = itr.psums_fine.map
      (fun t => t ++ List.replicate inds.length (List.replicate itr.moments (Fl.fin 0))) := by
  unfold goodShape at hg
  simp only [Bool.and_eq_true, beq_iff_eq] at hg
  obtain ⟨⟨⟨⟨⟨⟨⟨⟨h1, h2⟩, h3⟩, h4⟩, h5⟩, h6⟩, h7⟩, h8⟩, h9⟩ := hg
  have hpd : ∀ t, itr.psums_delta = some t → t.length = itr.lvls_count := by
    intro t ht
    rw [ht] at h8
    simpa using h8
  have hpf : ∀ t, itr.psums_fine = some t → t.length = itr.lvls_count := by
    intro t ht
    rw [ht] at h9
    simpa using h9
  unfold lvls_add_from_list
  have hsp := levels_added_spec { itr with lvls := itr.lvls ++ inds } inds.length
    (by dsimp only; rw [List.length_append, h1]) h2 h3 h4 h5 h6 h7 hpd hpf
  dsimp only at hsp
  obtain ⟨hs1, hs2, hs3, hs4, hs5, hs6, hs7, hs8, hs9, hs10, hs11⟩ := hsp
  refine ⟨?_, hs2, le_of_le_of_eq (Nat.le_add_right _ _) hs2.symm,
    hs4, hs5, hs6, hs7, hs8, hs9, hs10, hs11⟩
  unfold goodShape
  simp only [Bool.and_eq_true, beq_iff_eq]
  refine ⟨⟨⟨⟨⟨⟨⟨⟨?_, ?_⟩, ?_⟩, ?_⟩, ?_⟩, ?_⟩, ?_⟩, ?_⟩, ?_⟩
  · rw [hs1, hs2, List.length_append, h1]
  · rw [hs4, hs2, List.length_append, List.length_replicate, h2]
  · rw [hs5, hs2, List.length_append, List.length_replicate, h3]
  · rw [hs6, hs2, List.length_append, List.length_replicate, h4]
  · rw [hs8, hs2, List.length_append, List.length_replicate, h5]
  · rw [hs9, hs2, List.length_append, List.length_replicate, h6]
  · rw [hs7, hs2, List.length_append, List.length_replicate, h7]
  · simp only [hs10, hs2]
    cases hop : itr.psums_delta with
    | none => rfl
    | some t =>
        have ht := hpd t hop
        simp [Option.all, List.length_append, List.length_replicate, ht]
  · simp only [hs11, hs2]
    cases hop : itr.psums_fine with
    | none => rfl
    | some t =>
        have ht := hpf t hop
        simp [Option.all, List.length_append, List.length_replicate, ht]

/-- C9 (witness): the invariants applied to the concrete two-level state
`exItrA` extended by one level. -/
theorem lvls_add_from_list_invariants_witness :
    goodShape exItrA = true ∧
    goodShape (lvls_add_from_list exItrA [[2]]) = true ∧
    (lvls_add_from_list exItrA [[2]]).active_lvls =
      exItrA.active_lvls ++ List.replicate 1 1 :=
  ⟨by decide, (lvls_add_from_list_invariants exItrA [[2]] (by decide)).1,
    (lvls_add_from_list_invariants exItrA [[2]] (by decide)).2.2.2.2.2.2.2.2.1⟩

/-! ## ML2R combination weights (C5) -/

theorem tri_mul_two (n : ℕ) : 2 * tri n = n * (n + 1) := by
  induction n with
  | zero => rfl
  | succ n ih =>
      show 2 * (tri n + (n + 1)) = (n + 1) * (n + 2)
      rw [Nat.mul_add, ih]
      ring

theorem qprod_zero (q : ℝ) : qprod q 0 = 1 := by
  simp [qprod]

theorem qprod_succ (q : ℝ) (n : ℕ) :
    qprod q (n + 1) = qprod q n * (1 - q ^ (n + 1)) :=
  Finset.prod_range_succ _ _

theorem one_sub_qpow_pos {q : ℝ} (hq0 : 0 < q) (hq1 : q < 1) (i : ℕ) :
    0 < 1 - q ^ (i + 1) := by
  have h : q ^ (i + 1) < 1 := pow_lt_one hq0.le hq1 (Nat.succ_ne_zero i)
  linarith

theorem qprod_pos {q : ℝ} (hq0 : 0 < q) (hq1 : q < 1) (n : ℕ) :
    0 < qprod q n := by
  apply Finset.prod_pos
  intro k _
  exact one_sub_qpow_pos hq0 hq1 k

theorem qprod_ne {q : ℝ} (hq0 : 0 < q) (hq1 : q < 1) (n : ℕ) : qprod q n ≠ 0 :=
  ne_of_gt (qprod_pos hq0 hq1 n)

/-- The q-Pascal identity for the normalized products, in the explicit form
`n = j + 1 + m`. -/
theorem qprod_pascal {q : ℝ} (hq0 : 0 < q) (hq1 : q < 1) (j m : ℕ) :
    qprod q (j + 1 + m + 1) / (qprod q (j + 1) * qprod q (m + 1)) =
      qprod q (j + 1 + m) / (qprod q (j + 1) * qprod q m) +
        q ^ (m + 1) * (qprod q (j + 1 + m) / (qprod q j * qprod q (m + 1))) := by
  have hj := qprod_ne hq0 hq1 j
  have hm := qprod_ne hq0 hq1 m
  have hnn := qprod_ne hq0 hq1 (j + 1 + m)
  have hj1 := ne_of_gt (one_sub_qpow_pos hq0 hq1 j)
  have hm1 := ne_of_gt (one_sub_qpow_pos hq0 hq1 m)
  have hpow : q ^ (j + 1 + m + 1) = q ^ (j + 1) * q ^ (m + 1) := by
    rw [← pow_add]
    congr 1
  rw [qprod_succ q (j + 1 + m), qprod_succ q j, qprod_succ q m, hpow]
  field_simp
  ring

/-- q-Pascal in subtraction form, applicable to summands. -/
theorem qprod_pascal_sub {q : ℝ} (hq0 : 0 < q) (hq1 : q < 1) (n j : ℕ)
    (h : j + 1 ≤ n) :
    qprod q (n + 1) / (qprod q (j + 1) * qprod q (n - j)) =
      qprod q n / (qprod q (j + 1) * qprod q (n - (j + 1))) +
        q ^ (n - j) * (qprod q n / (qprod q j * qprod q (n - j))) := by
  obtain ⟨m, rfl⟩ : ∃ m, n = j + 1 + m := ⟨n - (j + 1), by omega⟩
  have h1 : j + 1 + m - j = m + 1 := by omega
  have h2 : j + 1 + m - (j + 1) = m := by omega
  rw [h1, h2]
  exact qprod_pascal hq0 hq1 j m

/-- The alternating q-sum identity behind the ML2R partition of unity:
`sum_(j=0..L) (-1)^j q^(tri j) (q;q)_L / ((q;q)_j (q;q)_(L-j)) = (q;q)_L`. -/
theorem qsum_eq {q : ℝ} (hq0 : 0 < q) (hq1 : q < 1) (L : ℕ) :
    ∑ j ∈ Finset.range (L + 1),
        ((-1 : ℝ) ^ j * q ^ tri j * (qprod q L / (qprod q j * qprod q (L - j)))) =
      qprod q L := by
  induction L with
  | zero => simp [tri, qprod_zero]
  | succ L ih =>
      have hneL := qprod_ne hq0 hq1 L
      set g : ℕ → ℝ := fun j =>
        (-1 : ℝ) ^ j * q ^ tri j * (qprod q L / (qprod q j * qprod q (L - j)))
        with hg
      set f : ℕ → ℝ := fun j =>
        (-1 : ℝ) ^ j * q ^ tri j *
          (qprod q (L + 1) / (qprod q j * qprod q (L + 1 - j)))
        with hf
      have hg0 : g 0 = 1 := by
        simp [hg, tri, qprod_zero, div_self hneL]
      have hgL : g L = (-1 : ℝ) ^ L * q ^ tri L := by
        simp [hg, qprod_zero, Nat.sub_self, div_self hneL]
      have hf0 : f 0 = 1 := by
        simp [hf, tri, qprod_zero, div_self (qprod_ne hq0 hq1 (L + 1))]
      have hftop : f (L + 1) = (-1 : ℝ) ^ (L + 1) * q ^ tri (L + 1) := by
        simp [hf, qprod_zero, Nat.sub_self, div_self (qprod_ne hq0 hq1 (L + 1))]
      have hterm : ∀ j ∈ Finset.range L,
          f (j + 1) = g (j + 1) + (-(q ^ (L + 1))) * g j := by
        intro j hj
        have hjL : j + 1 ≤ L := Finset.mem_range.mp hj
        have hsub : L + 1 - (j + 1) = L - j := by omega
        rw [hf, hg]
        dsimp only
        rw [hsub, qprod_pascal_sub hq0 hq1 L j hjL, mul_add]
        congr 1
        have hpow : q ^ tri (j + 1) * q ^ (L - j) = q ^ tri j * q ^ (L + 1) := by
          rw [← pow_add, ← pow_add]
          congr 1
          have htri : tri (j + 1) = tri j + (j + 1) := rfl
          omega
        have step :
            (-1 : ℝ) ^ (j + 1) * q ^ tri (j + 1) *
                (q ^ (L - j) * (qprod q L / (qprod q j * qprod q (L - j)))) =
              (-1 : ℝ) ^ (j + 1) * (q ^ tri (j + 1) * q ^ (L - j)) *
                (qprod q L / (qprod q j * qprod q (L - j))) := by
          ring
        rw [step, hpow, pow_succ]
        ring
      have hsplit1 :
          ∑ j ∈ Finset.range (L + 1 + 1), f j =
            (∑ j ∈ Finset.range (L + 1), f j) + f (L + 1) :=
        Finset.sum_range_succ _ _
      have hsplit2 :
          ∑ j ∈ Finset.range (L + 1), f j =
            (∑ j ∈ Finset.range L, f (j + 1)) + f 0 :=
        Finset.sum_range_succ' _ _
      have hsum1 :
          ∑ j ∈ Finset.range L, f (j + 1) =
            (∑ j ∈ Finset.range L, g (j + 1)) +
              (-(q ^ (L + 1))) * ∑ j ∈ Finset.range L, g j := by
        rw [Finset.sum_congr rfl hterm, Finset.sum_add_distrib, ← Finset.mul_sum]
      have hsumg1 : ∑ j ∈ Finset.range L, g (j + 1) = qprod q L - 1 := by
        have h := Finset.sum_range_succ' g L
        rw [ih, hg0] at h
        linarith
      have hsumg2 : ∑ j ∈ Finset.range L, g j =
          qprod q L - (-1 : ℝ) ^ L * q ^ tri L := by
        have h := Finset.sum_range_succ g L
        rw [ih, hgL] at h
        linarith
      have hfinal :
          (qprod q L - 1) + (-(q ^ (L + 1))) *
              (qprod q L - (-1 : ℝ) ^ L * q ^ tri L) + 1 +
            (-1 : ℝ) ^ (L + 1) * q ^ tri (L + 1) = qprod q (L + 1) := by
        have htri : tri (L + 1) = tri L + (L + 1) := rfl
        rw [qprod_succ, htri, pow_add, pow_succ ((-1 : ℝ)) L]
        ring
      calc ∑ j ∈ Finset.range (L + 1 + 1), f j
          = (∑ j ∈ Finset.range L, f (j + 1)) + f 0 + f (L + 1) := by
            rw [hsplit1, hsplit2]
        _ = (qprod q L - 1) + (-(q ^ (L + 1))) *
              (qprod q L - (-1 : ℝ) ^ L * q ^ tri L) + 1 +
              (-1 : ℝ) ^ (L + 1) * q ^ tri (L + 1) := by
            rw [hsum1, hsumg1, hsumg2, hf0, hftop]
        _ = qprod q (L + 1) := hfinal

/-- The normalized alternating q-sum equals 1. -/
theorem qsum_norm_eq_one {q : ℝ} (hq0 : 0 < q) (hq1 : q < 1) (L : ℕ) :
    ∑ j ∈ Finset.range (L + 1),
        ((-1 : ℝ) ^ j * q ^ tri j / (qprod q j * qprod q (L - j))) = 1 := by
  have hneL := qprod_ne hq0 hq1 L
  have h : ∀ j ∈ Finset.range (L + 1),
      (-1 : ℝ) ^ j * q ^ tri j / (qprod q j * qprod q (L - j)) =
        ((-1 : ℝ) ^ j * q ^ tri j * (qprod q L / (qprod q j * qprod q (L - j)))) /
          qprod q L := by
    intro j _
    have hj := qprod_ne hq0 hq1 j
    have hlj := qprod_ne hq0 hq1 (L - j)
    field_simp
    ring
  rw [Finset.sum_congr rfl h, ← Finset.sum_div, qsum_eq hq0 hq1 L,
    div_self hneL]

theorem ml2r_denom_eq (α : ℝ) (n : ℕ) :
    ml2r_denom α n = qprod (Real.exp (-α)) n := by
  unfold ml2r_denom qprod
  apply Finset.prod_congr rfl
  intro k _
  congr 1
  rw [← Real.exp_nat_mul]
  congr 1
  push_cast
  ring

theorem ml2r_w_eq (α : ℝ) (L ℓ : ℕ) (h : ℓ ≤ L) :
    ml2r_w α L ℓ =
      (-1 : ℝ) ^ (L - ℓ) * (Real.exp (-α)) ^ tri (L - ℓ) /
        (qprod (Real.exp (-α)) ℓ * qprod (Real.exp (-α)) (L - ℓ)) := by
  unfold ml2r_w
  rw [ml2r_denom_eq, ml2r_denom_eq]
  have hL : ((L : ℝ) - ℓ) = ((L - ℓ : ℕ) : ℝ) := by
    rw [Nat.cast_sub h]
  have htri : ((tri (L - ℓ) : ℕ) : ℝ) * 2 = ((L - ℓ : ℕ) : ℝ) * (((L - ℓ : ℕ) : ℝ) + 1) := by
    have h2 := tri_mul_two (L - ℓ)
    have := congrArg (Nat.cast : ℕ → ℝ) h2
    push_cast at this
    linarith
  congr 1
  congr 1
  rw [← Real.exp_nat_mul]
  congr 1
  rw [show -α * ((L : ℝ) - ℓ) * ((L : ℝ) + 1 - ℓ) / 2 =
      -α * (((L : ℝ) - ℓ) * (((L : ℝ) - ℓ) + 1)) / 2 by ring, hL]
  have : ((L - ℓ : ℕ) : ℝ) * (((L - ℓ : ℕ) : ℝ) + 1) = ((tri (L - ℓ) : ℕ) : ℝ) * 2 := by
    linarith
  rw [this]
  ring

/-- C5: for every `α > 0` and `L ≥ 0`, the un-accumulated ML2R weights
`w[0..L]` sum to 1, and equivalently the first entry of the reverse
cumulative sum returned by `calc_ml2r_weights` equals 1 (the partition of
unity of the two-rate combination technique). -/
theorem ml2r_weights_sum_to_one (α : ℝ) (L : ℕ) (hα : 0 < α) :
    (∑ ℓ ∈ Finset.range (L + 1), ml2r_w α L ℓ = 1) ∧
    (calc_ml2r_weights α L).headI = 1 := by
  have hq0 : 0 < Real.exp (-α) := Real.exp_pos _
  have hq1 : Real.exp (-α) < 1 := by
    rw [Real.exp_lt_one_iff]
    linarith
  have hsum : ∑ ℓ ∈ Finset.range (L + 1), ml2r_w α L ℓ = 1 := by
    have hcongr : ∀ ℓ ∈ Finset.range (L + 1),
        ml2r_w α L ℓ =
          (fun j => (-1 : ℝ) ^ j * (Real.exp (-α)) ^ tri j /
            (qprod (Real.exp (-α)) j * qprod (Real.exp (-α)) (L - j))) (L - ℓ) := by
      intro ℓ hℓ
      have hle : ℓ ≤ L := Nat.lt_succ_iff.mp (Finset.mem_range.mp hℓ)
      rw [ml2r_w_eq α L ℓ hle]
      dsimp only
      have hswap : L - (L - ℓ) = ℓ := by omega
      rw [hswap, mul_comm (qprod (Real.exp (-α)) (L - ℓ))]
    rw [Finset.sum_congr rfl hcongr]
    have hrefl := Finset.sum_range_reflect
      (fun j => (-1 : ℝ) ^ j * (Real.exp (-α)) ^ tri j /
        (qprod (Real.exp (-α)) j * qprod (Real.exp (-α)) (L - j))) (L + 1)
    have hidx : ∀ ℓ ∈ Finset.range (L + 1),
        (fun j => (-1 : ℝ) ^ j * (Real.exp (-α)) ^ tri j /
          (qprod (Real.exp (-α)) j * qprod (Real.exp (-α)) (L - j))) (L - ℓ) =
        (fun j => (-1 : ℝ) ^ j * (Real.exp (-α)) ^ tri j /
          (qprod (Real.exp (-α)) j * qprod (Real.exp (-α)) (L - j))) (L + 1 - 1 - ℓ) := by
      intro ℓ _
      have : L + 1 - 1 - ℓ = L - ℓ := by omega
      rw [this]
    rw [Finset.sum_congr rfl hidx, hrefl]
    exact qsum_norm_eq_one hq0 hq1 L
  refine ⟨hsum, ?_⟩
  unfold calc_ml2r_weights
  rw [List.range_succ_eq_map]
  simp only [List.map_cons, List.headI]
  rw [show Finset.Ico 0 (L + 1) = Finset.range (L + 1) by
    rw [Finset.range_eq_Ico]]
  exact hsum

/-- C5 (witness): the theorem applied at `α = 1`, `L = 0`. -/
theorem ml2r_weights_sum_to_one_witness :
    (0 : ℝ) < 1 ∧
    ((∑ ℓ ∈ Finset.range 1, ml2r_w 1 0 ℓ = 1) ∧
      (calc_ml2r_weights 1 0).headI = 1) :=
  ⟨by norm_num, ml2r_weights_sum_to_one 1 0 (by norm_num)⟩

end Mimc
